import Mathlib

/-!
Verification of the import-resolution and dependency-closure engine of the
`clump` tool (src/main.rs), as a shallow embedding in Lean 4.

Paths are modelled as strings with Unix separators.  `rustJoin` mirrors
`Path::join` (an absolute right operand replaces the base), `withExtension`
mirrors `Path::with_extension`, `extOf` mirrors `Path::extension`,
`parentDir` mirrors `Path::parent().unwrap_or("")`.  The filesystem is a
finite model: lists of existing files and directories (stored normalized)
plus, for each file, the list of raw import strings that the tree-sitter
extraction would produce from its content.  `canonicalize` is modelled as
lexical normalization (removal of `.` components) guarded by existence,
which is its behaviour in the absence of symlinks.
-/

namespace Clump

/-- Decide whether the first character list is a prefix of the second. -/
def listPre : List Char → List Char → Bool
  | [], _ => true
  | _ :: _, [] => false
  | a :: as, b :: bs => a == b && listPre as bs

/-- Mirror of `str::starts_with`. -/
def strStartsWith (s pre : String) : Bool :=
  listPre pre.toList s.toList

/-- Mirror of `str::ends_with`. -/
def strEndsWith (s suf : String) : Bool :=
  listPre suf.toList.reverse s.toList.reverse

/-- Split a character list at every occurrence of `c` (like
`String::split`, empty pieces preserved). -/
def splitChar (c : Char) : List Char → List (List Char)
  | [] => [[]]
  | a :: as =>
    if a == c then [] :: splitChar c as
    else
      match splitChar c as with
      | [] => [[a]]
      | g :: gs => (a :: g) :: gs

/-- Join strings with the path separator. -/
def joinSlash : List String → String
  | [] => ""
  | [x] => x
  | x :: xs => x ++ "/" ++ joinSlash xs

/-- Replace every occurrence of character `c` by `r`, mirror of the
source's `str::replace('.', "/")` with a one-character replacement. -/
def replaceChar (s : String) (c r : Char) : String :=
  String.mk (s.toList.map (fun a => if a == c then r else a))

/-- Mirror of Rust `Path::join`: if the right operand is absolute it replaces
the base entirely, otherwise it is appended with a separator. -/
def rustJoin (base p : String) : String :=
  if strStartsWith p "/" then p
  else if base == "" then p
  else if strEndsWith base "/" then base ++ p
  else base ++ "/" ++ p

/-- Components of a path string, split at separators. -/
def pathComps (p : String) : List String :=
  (splitChar '/' p.toList).map String.mk

/-- Lexical normalization as performed by the OS when resolving a path with
no symlinks: drop empty components and `.` components. -/
def normPath (p : String) : String :=
  let comps := (pathComps p).filter (fun c => c ≠ "" && c ≠ ".")
  if strStartsWith p "/" then "/" ++ joinSlash comps
  else joinSlash comps

/-- Last path component, mirror of Rust `Path::file_name` for ordinary paths. -/
def lastComponent (p : String) : String :=
  String.mk ((p.toList.reverse.takeWhile (fun c => c ≠ '/')).reverse)

/-- Mirror of Rust `Path::parent().unwrap_or("")` (lexical: strip the last
component; keep a lone leading separator). -/
def parentDir (p : String) : String :=
  let cs := p.toList
  if cs.contains '/' then
    let pre := (cs.reverse.dropWhile (fun c => c ≠ '/')).reverse
    if pre == ['/'] then "/" else String.mk pre.dropLast
  else ""

/-- Split a file name into stem and extension at the last dot, provided that
dot is not the leading character (Rust `Path` semantics: `.sub` has no
extension, `a.b.c` has extension `c`). -/
def extSplit (name : List Char) : Option (List Char × List Char) :=
  let extRev := name.reverse.takeWhile (fun c => c ≠ '.')
  if extRev.length == name.length then none
  else
    let stemLen := name.length - extRev.length - 1
    if stemLen == 0 then none
    else some (name.take stemLen, extRev.reverse)

/-- Mirror of `Path::extension().and_then(to_str).unwrap_or("")`. -/
def extOf (p : String) : String :=
  match extSplit (lastComponent p).toList with
  | some (_, ext) => String.mk ext
  | none => ""

/-- Mirror of `Path::with_extension`: replace (or append) the extension of
the last component. -/
def withExtension (p ext : String) : String :=
  let name := lastComponent p
  let stem :=
    match extSplit name.toList with
    | some (st, _) => String.mk st
    | none => name
  rustJoin (parentDir p) (stem ++ "." ++ ext)

/-- Mirror of Rust `str::split_once`: split at the first occurrence of `c`. -/
def splitOnce (s : String) (c : Char) : Option (String × String) :=
  if s.toList.contains c then
    some (String.mk (s.toList.takeWhile (fun a => a ≠ c)),
          String.mk ((s.toList.dropWhile (fun a => a ≠ c)).drop 1))
  else none

/-- ASCII lowercasing, mirror of `str::to_lowercase` on ASCII extensions. -/
def lowerStr (s : String) : String :=
  String.mk (s.toList.map Char.toLower)

/-- Finite filesystem model: normalized paths of existing regular files and
directories, and per (normalized) file path the raw import strings that
parsing its content extracts. -/
structure FS where
  files : List String
  dirs : List String
  rawImports : String → List String

/-- Keep one copy of every element of a list. -/
def dedupList : List String → List String
  | [] => []
  | a :: as =>
    let d := dedupList as
    if d.contains a then d else a :: d

/-- All existing paths of the model, without duplicates. -/
def FS.allPaths (fs : FS) : List String :=
  dedupList (fs.files ++ fs.dirs)

/-- Mirror of `Path::exists` (the OS resolves `.` components). -/
def existsPath (fs : FS) (p : String) : Bool :=
  fs.files.contains (normPath p) || fs.dirs.contains (normPath p)

/-- True when the path names a regular file (readable by `read_to_string`). -/
def isFile (fs : FS) (p : String) : Bool :=
  fs.files.contains (normPath p)

/-- Mirror of `Path::canonicalize`: fails when the path does not exist,
otherwise yields the normalized path (no symlinks in the model). -/
def canon (fs : FS) (p : String) : Option String :=
  if existsPath fs p then some (normPath p) else none

/-- Mirror of `Path::starts_with` on normalized paths (component-wise). -/
def underRoot (root q : String) : Bool :=
  q == root || strStartsWith q (root ++ "/")

/-- Model of `ProjectContext`: repository root, gitignore matcher
(abstracted to a predicate on the path as given, mirroring
`Gitignore::matched_path_or_any_parents(path, ..).is_ignore()`), and the
alias table of `PathAliases` (`HashMap` modelled as an association list;
the program populates it with the single entry `@ ↦ git_root`). -/
structure ProjectContext where
  git_root : String
  ignoreRule : String → Bool
  path_aliases : List (String × String)

/-- Mirror of `PathAliases::resolve_path`: if the raw import splits at the
first `/` and the left token is a known alias, join the remainder onto the
alias target; otherwise, if the raw import starts with `.`, join it onto the
importing file's directory; otherwise `none`. -/
def resolve_path (aliases : List (String × String)) (impPath fileDir : String) :
    Option String :=
  match splitOnce impPath '/' with
  | some (al, rest) =>
    match List.lookup al aliases with
    | some aliasPath => some (rustJoin aliasPath rest)
    | none =>
      if strStartsWith impPath "." then some (rustJoin fileDir impPath) else none
  | none =>
    if strStartsWith impPath "." then some (rustJoin fileDir impPath) else none

/-- Mirror of `resolve_python_import`: convert dots to separators, join onto
the file's directory (leading-dot token) or the repository root (otherwise),
and set the `py` extension. -/
def resolve_python_import (imp fileDir gitRoot : String) : Option String :=
  if strStartsWith imp "." then
    some (withExtension (rustJoin fileDir (replaceChar imp '.' '/')) "py")
  else
    some (withExtension (rustJoin gitRoot (replaceChar imp '.' '/')) "py")

/-- Mirror of `resolve_js_import`: return the base path unchanged (the
comment in the source claims the existence check in `get_imports` handles
extension and index variants). -/
def resolve_js_import (imp fileDir : String) : String :=
  rustJoin fileDir imp

/-- The two language families the extension dispatch recognizes. -/
inductive Lang
  | python
  | jsts
deriving DecidableEq, Repr

/-- The extension dispatch of `get_imports` (applied to the lowercased
extension). -/
def langConfig : String → Option Lang
  | "py" => some Lang.python
  | "js" | "ts" | "jsx" | "tsx" => some Lang.jsts
  | _ => none

/-- Walker errors: `ioErr` mirrors the `anyhow` propagation of a failed
read or canonicalization; `fuelOut` is the fuel-exhaustion artefact of the
embedding (the Rust recursion has no such case). -/
inductive WalkErr
  | fuelOut
  | ioErr (p : String)
deriving DecidableEq, Repr

/-- Mirror of `ProjectContext::is_ignored`: ignored when the canonicalized
path does not lie under the repository root (canonicalization failure counts
as ignored), or when the gitignore matcher fires on the path as given. -/
def isIgnored (ctx : ProjectContext) (fs : FS) (p : String) : Bool :=
  !(((canon fs p).map (fun c => underRoot ctx.git_root c)).getD false)
    || ctx.ignoreRule p

/-- Mirror of `get_imports`: read the file (error if it is not a regular
file), dispatch on the lowercased extension (unknown extensions yield the
empty list), resolve each extracted raw import string — Python through
`resolve_python_import`, JS/TS through `resolve_path` with
`resolve_js_import` as fallback — and keep only candidates that exist. -/
def getImports (ctx : ProjectContext) (fs : FS) (filePath : String) :
    Except WalkErr (List String) :=
  if isFile fs filePath then
    match langConfig (lowerStr (extOf filePath)) with
    | none => Except.ok []
    | some lang =>
      Except.ok ((((fs.rawImports (normPath filePath)).filterMap (fun raw =>
        match lang with
        | Lang.python => resolve_python_import raw (parentDir filePath) ctx.git_root
        | Lang.jsts =>
          (resolve_path ctx.path_aliases raw (parentDir filePath)).orElse
            (fun _ => some (resolve_js_import raw (parentDir filePath)))))).filter
        (fun q => existsPath fs q))
  else Except.error (WalkErr.ioErr filePath)

/-- Walker state: the `processed` set of canonical paths (`VisitedSet`),
plus a ghost log of the files whose contents were read. -/
structure WalkState where
  visited : List String
  reads : List String
deriving DecidableEq, Repr

/-- Mirror of `process_file`: canonicalize (propagating failure), return
unchanged when already visited or ignored, otherwise insert the canonical
path, read and resolve the imports, and recurse on each.  `fuel` bounds the
recursion depth; `fuelOut` never occurs with sufficient fuel (proved
below). -/
def processFile : Nat → ProjectContext → FS → String → WalkState →
    Except WalkErr WalkState
  | 0, _, _, _, _ => Except.error WalkErr.fuelOut
  | (fuel+1), ctx, fs, p, st =>
    match canon fs p with
    | none => Except.error (WalkErr.ioErr p)
    | some c =>
      if st.visited.contains c || isIgnored ctx fs p then Except.ok st
      else
        match getImports ctx fs p with
        | Except.error e => Except.error e
        | Except.ok imps =>
          imps.foldlM (fun s i => processFile fuel ctx fs i s)
            ⟨c :: st.visited, p :: st.reads⟩

/-- Sequential processing of a list of resolved imports, as the `for` loop
of `process_file` does (each recursive call receives the state left by the
previous one, errors abort). -/
def processImports (fuel : Nat) (ctx : ProjectContext) (fs : FS) :
    List String → WalkState → Except WalkErr WalkState
  | [], st => Except.ok st
  | i :: rest, st =>
    match processFile fuel ctx fs i st with
    | Except.error e => Except.error e
    | Except.ok st' => processImports fuel ctx fs rest st'

section Walker

variable (ctx : ProjectContext) (fs : FS)

/-- The fold inside `processFile` is exactly `processImports`. -/
theorem foldlM_eq_processImports (fuel : Nat) (imps : List String)
    (st : WalkState) :
    imps.foldlM (fun s i => processFile fuel ctx fs i s) st
      = processImports fuel ctx fs imps st := by
  induction imps generalizing st with
  | nil => rfl
  | cons i rest ih =>
    show (processFile fuel ctx fs i st >>= fun s =>
        rest.foldlM (fun s i => processFile fuel ctx fs i s) s)
      = processImports fuel ctx fs (i :: rest) st
    cases h : processFile fuel ctx fs i st with
    | error e => simp only [processImports, h]; rfl
    | ok st₁ =>
      simp only [processImports, h]
      calc (Except.ok st₁ >>= fun s =>
            rest.foldlM (fun s i => processFile fuel ctx fs i s) s)
          = rest.foldlM (fun s i => processFile fuel ctx fs i s) st₁ := rfl
        _ = processImports fuel ctx fs rest st₁ := ih st₁

/-- Unfolding of `processFile` at zero fuel. -/
theorem processFile_zero (p : String) (st : WalkState) :
    processFile 0 ctx fs p st = Except.error WalkErr.fuelOut := rfl

/-- Unfolding of `processFile` at positive fuel, phrased with
`processImports`. -/
theorem processFile_succ (fuel : Nat) (p : String) (st : WalkState) :
    processFile (fuel+1) ctx fs p st =
      match canon fs p with
      | none => Except.error (WalkErr.ioErr p)
      | some c =>
        if st.visited.contains c || isIgnored ctx fs p then Except.ok st
        else
          match getImports ctx fs p with
          | Except.error e => Except.error e
          | Except.ok imps =>
            processImports fuel ctx fs imps ⟨c :: st.visited, p :: st.reads⟩ := by
  show (match canon fs p with
      | none => Except.error (WalkErr.ioErr p)
      | some c =>
        if st.visited.contains c || isIgnored ctx fs p then Except.ok st
        else
          match getImports ctx fs p with
          | Except.error e => Except.error e
          | Except.ok imps =>
            imps.foldlM (fun s i => processFile fuel ctx fs i s)
              ⟨c :: st.visited, p :: st.reads⟩) = _
  cases canon fs p with
  | none => rfl
  | some c =>
    by_cases hg : (st.visited.contains c || isIgnored ctx fs p) = true
    · simp only [if_pos hg]
    · simp only [if_neg hg]
      cases getImports ctx fs p with
      | error e => rfl
      | ok imps => exact foldlM_eq_processImports ctx fs fuel imps _

/-- The only error `get_imports` can raise is the read failure on its own
argument. -/
theorem getImports_error (p : String) (e : WalkErr)
    (h : getImports ctx fs p = Except.error e) : e = WalkErr.ioErr p := by
  unfold getImports at h
  by_cases hf : isFile fs p = true
  · rw [if_pos hf] at h
    cases hl : langConfig (lowerStr (extOf p)) <;> rw [hl] at h <;> cases h
  · rw [if_neg hf] at h
    cases h
    rfl

/-- Membership in a list and its `contains` test agree. -/
theorem contains_iff (l : List String) (a : String) :
    l.contains a = true ↔ a ∈ l := by
  induction l with
  | nil => simp [List.contains, List.elem]
  | cons b t ih =>
    simp only [List.contains, List.elem] at ih ⊢
    cases hb : a == b with
    | true => simp [List.mem_cons, eq_of_beq hb]
    | false =>
      have : ¬ a = b := fun hab => by simp [hab] at hb
      simp [List.mem_cons, this, ih]

/-- Membership is preserved by `dedupList`. -/
theorem mem_dedupList (l : List String) (a : String) :
    a ∈ dedupList l ↔ a ∈ l := by
  induction l with
  | nil => simp [dedupList]
  | cons b t ih =>
    simp only [dedupList]
    by_cases hb : (dedupList t).contains b = true
    · rw [if_pos hb]
      constructor
      · intro ha; exact List.mem_cons_of_mem _ (ih.mp ha)
      · intro ha
        rcases List.mem_cons.mp ha with rfl | ha
        · exact (contains_iff _ _).mp hb
        · exact ih.mpr ha
    · rw [if_neg hb]
      simp [List.mem_cons, ih]

/-- A successful canonicalization means the path exists and the result is
its normalization. -/
theorem canon_some (p c : String) (h : canon fs p = some c) :
    existsPath fs p = true ∧ c = normPath p := by
  unfold canon at h
  by_cases hex : existsPath fs p = true
  · rw [if_pos hex] at h
    cases h
    exact ⟨hex, rfl⟩
  · rw [if_neg hex] at h
    cases h

/-- A canonical path belongs to the finite universe of existing paths. -/
theorem canon_mem_allPaths (p c : String) (h : canon fs p = some c) :
    c ∈ FS.allPaths fs := by
  obtain ⟨hex, rfl⟩ := canon_some fs p c h
  unfold existsPath at hex
  rw [FS.allPaths, mem_dedupList, List.mem_append]
  cases hf : fs.files.contains (normPath p) with
  | true => exact Or.inl ((contains_iff _ _).mp hf)
  | false =>
    rw [hf] at hex
    simp only [Bool.false_or] at hex
    exact Or.inr ((contains_iff _ _).mp hex)

/-- A canonical path the walker may legitimately insert: the image of some
raw path that canonicalizes to it and is not ignored. -/
def GoodNew (x : String) : Prop :=
  ∃ r, canon fs r = some x ∧ isIgnored ctx fs r = false

/-- Invariant of one walker step: the visited set only grows, every new
element is a `GoodNew` canonical path, and freedom from duplicates is
preserved. -/
def StepInv (f : WalkState → Except WalkErr WalkState) : Prop :=
  ∀ st st', f st = Except.ok st' →
    st.visited ⊆ st'.visited
    ∧ (∀ x ∈ st'.visited, x ∈ st.visited ∨ GoodNew ctx fs x)
    ∧ (st.visited.Nodup → st'.visited.Nodup)

/-- The identity step satisfies the invariant. -/
theorem stepInv_id (st : WalkState) :
    st.visited ⊆ st.visited
    ∧ (∀ x ∈ st.visited, x ∈ st.visited ∨ GoodNew ctx fs x)
    ∧ (st.visited.Nodup → st.visited.Nodup) :=
  ⟨List.Subset.refl _, fun _ hx => Or.inl hx, id⟩

/-- Every level of the walker satisfies `StepInv`, both for single files
and for import lists. -/
theorem walk_inv : ∀ fuel : Nat,
    (∀ p, StepInv ctx fs (processFile fuel ctx fs p))
    ∧ (∀ imps, StepInv ctx fs (processImports fuel ctx fs imps)) := by
  intro fuel
  induction fuel with
  | zero =>
    constructor
    · intro p st st' h
      rw [processFile_zero] at h
      cases h
    · intro imps
      induction imps with
      | nil =>
        intro st st' h
        cases h
        exact stepInv_id ctx fs st
      | cons i rest ih =>
        intro st st' h
        unfold processImports at h
        rw [processFile_zero] at h
        cases h
  | succ fuel ih =>
    have hpf : ∀ p, StepInv ctx fs (processFile (fuel+1) ctx fs p) := by
      intro p st st' h
      rw [processFile_succ] at h
      cases hc : canon fs p with
      | none => rw [hc] at h; cases h
      | some c =>
        rw [hc] at h
        simp only at h
        by_cases hg : (st.visited.contains c || isIgnored ctx fs p) = true
        · rw [if_pos hg] at h
          cases h
          exact stepInv_id ctx fs st
        · rw [if_neg hg] at h
          have hgand : st.visited.contains c = false
              ∧ isIgnored ctx fs p = false := by
            constructor
            · cases h1 : st.visited.contains c
              · rfl
              · exact absurd (by rw [h1]; rfl) hg
            · cases h2 : isIgnored ctx fs p
              · rfl
              · exact absurd (by rw [h2, Bool.or_true]) hg
          cases hgi : getImports ctx fs p with
          | error e => rw [hgi] at h; cases h
          | ok imps =>
            rw [hgi] at h
            simp only at h
            obtain ⟨hm, hs, hn⟩ :=
              ih.2 imps ⟨c :: st.visited, p :: st.reads⟩ st' h
            refine ⟨?_, ?_, ?_⟩
            · intro x hx
              exact hm (List.mem_cons_of_mem _ hx)
            · intro x hx
              rcases hs x hx with hx1 | hx2
              · rcases List.mem_cons.mp hx1 with rfl | hx1
                · exact Or.inr ⟨p, hc, hgand.2⟩
                · exact Or.inl hx1
              · exact Or.inr hx2
            · intro hnd
              refine hn (List.nodup_cons.mpr ⟨?_, hnd⟩)
              intro hmem
              rw [(contains_iff st.visited c).mpr hmem] at hgand
              cases hgand.1
    have hpl : ∀ imps, StepInv ctx fs (processImports (fuel+1) ctx fs imps) := by
      intro imps
      induction imps with
      | nil =>
        intro st st' h
        cases h
        exact stepInv_id ctx fs st
      | cons i rest ihr =>
        intro st st' h
        unfold processImports at h
        cases hi : processFile (fuel+1) ctx fs i st with
        | error e => rw [hi] at h; cases h
        | ok st₁ =>
          rw [hi] at h
          simp only at h
          obtain ⟨m₁, s₁, n₁⟩ := hpf i st st₁ hi
          obtain ⟨m₂, s₂, n₂⟩ := ihr st₁ st' h
          refine ⟨m₁.trans m₂, ?_, fun hn => n₂ (n₁ hn)⟩
          intro x hx
          rcases s₂ x hx with hx1 | hx2
          · rcases s₁ x hx1 with hx3 | hx4
            · exact Or.inl hx3
            · exact Or.inr hx4
          · exact Or.inr hx2
    exact ⟨hpf, hpl⟩

/-- A filter with a stronger predicate keeps at most as many elements. -/
theorem filterLen_le {α : Type} (l : List α) (p q : α → Bool)
    (h : ∀ x, q x = true → p x = true) :
    (l.filter q).length ≤ (l.filter p).length := by
  induction l with
  | nil => exact Nat.le_refl 0
  | cons a t ih =>
    cases hq : q a with
    | true =>
      rw [List.filter_cons_of_pos hq, List.filter_cons_of_pos (h a hq)]
      exact Nat.succ_le_succ ih
    | false =>
      rw [List.filter_cons_of_neg (by simp [hq])]
      cases hp : p a with
      | true =>
        rw [List.filter_cons_of_pos hp]
        exact Nat.le_succ_of_le ih
      | false =>
        rw [List.filter_cons_of_neg (by simp [hp])]
        exact ih

/-- A filter with a stronger predicate that loses a witness kept by the
weaker one is strictly shorter. -/
theorem filterLen_lt {α : Type} (l : List α) (p q : α → Bool) (c : α)
    (hc : c ∈ l) (hpc : p c = true) (hqc : q c = false)
    (h : ∀ x, q x = true → p x = true) :
    (l.filter q).length < (l.filter p).length := by
  induction l with
  | nil => cases hc
  | cons a t ih =>
    rcases List.mem_cons.mp hc with rfl | hct
    · rw [List.filter_cons_of_pos hpc, List.filter_cons_of_neg (by simp [hqc])]
      exact Nat.lt_succ_of_le (filterLen_le t p q h)
    · cases hq : q a with
      | true =>
        rw [List.filter_cons_of_pos hq, List.filter_cons_of_pos (h a hq)]
        exact Nat.succ_lt_succ (ih hct)
      | false =>
        rw [List.filter_cons_of_neg (by simp [hq])]
        cases hp : p a with
        | true =>
          rw [List.filter_cons_of_pos hp]
          exact Nat.lt_succ_of_lt (ih hct)
        | false =>
          rw [List.filter_cons_of_neg (by simp [hp])]
          exact ih hct

/-- Number of existing paths not yet in the visited list: the measure that
shrinks at every insertion the walker performs. -/
def unvisitedCount (v : List String) : Nat :=
  ((FS.allPaths fs).filter (fun q => !(v.contains q))).length

/-- A larger visited list leaves at most as many paths unvisited. -/
theorem unvisitedCount_le (v v' : List String) (h : v ⊆ v') :
    unvisitedCount fs v' ≤ unvisitedCount fs v := by
  refine filterLen_le _ _ _ ?_
  intro x hx
  cases hv : v.contains x with
  | true =>
    have : v'.contains x = true :=
      (contains_iff _ _).mpr (h ((contains_iff _ _).mp hv))
    rw [this] at hx
    cases hx
  | false => rfl

/-- Inserting a fresh existing path strictly shrinks the measure. -/
theorem unvisitedCount_insert_lt (v : List String) (c : String)
    (hcU : c ∈ FS.allPaths fs) (hcv : v.contains c = false) :
    unvisitedCount fs (c :: v) < unvisitedCount fs v := by
  refine filterLen_lt _ _ _ c hcU (by rw [hcv]; rfl) ?_ ?_
  · have : (c :: v).contains c = true := (contains_iff _ _).mpr (List.mem_cons_self _ _)
    rw [this]
    rfl
  · intro x hx
    cases hv : v.contains x with
    | true =>
      have : (c :: v).contains x = true :=
        (contains_iff _ _).mpr (List.mem_cons_of_mem _ ((contains_iff _ _).mp hv))
      rw [this] at hx
      cases hx
    | false => rfl

/-- Fuel adequacy: with more fuel than unvisited existing paths, the walker
cannot exhaust its fuel, and one more unit of fuel does not change the
result — the embedding's fuel is inessential, i.e. the recursion
terminates. -/
theorem walk_adequate : ∀ fuel : Nat,
    (∀ p st, unvisitedCount fs st.visited < fuel →
      processFile fuel ctx fs p st ≠ Except.error WalkErr.fuelOut
      ∧ processFile (fuel+1) ctx fs p st = processFile fuel ctx fs p st)
    ∧ (∀ imps st, unvisitedCount fs st.visited < fuel →
      processImports fuel ctx fs imps st ≠ Except.error WalkErr.fuelOut
      ∧ processImports (fuel+1) ctx fs imps st
          = processImports fuel ctx fs imps st) := by
  intro fuel
  induction fuel with
  | zero =>
    exact ⟨fun p st hm => absurd hm (Nat.not_lt_zero _),
           fun imps st hm => absurd hm (Nat.not_lt_zero _)⟩
  | succ fuel ih =>
    have hpf : ∀ p st, unvisitedCount fs st.visited < fuel + 1 →
        processFile (fuel+1) ctx fs p st ≠ Except.error WalkErr.fuelOut
        ∧ processFile (fuel+1+1) ctx fs p st
            = processFile (fuel+1) ctx fs p st := by
      intro p st hm
      rw [processFile_succ ctx fs fuel p st, processFile_succ ctx fs (fuel+1) p st]
      cases hc : canon fs p with
      | none => exact ⟨(fun h => WalkErr.noConfusion (Except.error.inj h)), rfl⟩
      | some c =>
        simp only
        by_cases hg : (st.visited.contains c || isIgnored ctx fs p) = true
        · simp only [if_pos hg]
          exact ⟨(fun h => Except.noConfusion h), trivial⟩
        · simp only [if_neg hg]
          have hcont : st.visited.contains c = false := by
            cases h1 : st.visited.contains c
            · rfl
            · exact absurd (by rw [h1]; rfl) hg
          cases hgi : getImports ctx fs p with
          | error e =>
            simp only
            refine ⟨fun h => ?_, trivial⟩
            have he := getImports_error ctx fs p e hgi
            have h2 := Except.error.inj h
            rw [he] at h2
            exact WalkErr.noConfusion h2
          | ok imps =>
            simp only
            have hm' : unvisitedCount fs (c :: st.visited) < fuel :=
              Nat.lt_of_lt_of_le
                (unvisitedCount_insert_lt fs st.visited c
                  (canon_mem_allPaths fs p c hc) hcont)
                (Nat.lt_succ_iff.mp hm)
            exact ih.2 imps ⟨c :: st.visited, p :: st.reads⟩ hm'
    have hpl : ∀ imps st, unvisitedCount fs st.visited < fuel + 1 →
        processImports (fuel+1) ctx fs imps st ≠ Except.error WalkErr.fuelOut
        ∧ processImports (fuel+1+1) ctx fs imps st
            = processImports (fuel+1) ctx fs imps st := by
      intro imps
      induction imps with
      | nil => exact fun st hm => ⟨(fun h => Except.noConfusion h), rfl⟩
      | cons i rest ihr =>
        intro st hm
        have h1 := hpf i st hm
        constructor
        · show (match processFile (fuel+1) ctx fs i st with
              | Except.error e => Except.error e
              | Except.ok st' => processImports (fuel+1) ctx fs rest st')
            ≠ Except.error WalkErr.fuelOut
          cases hi : processFile (fuel+1) ctx fs i st with
          | error e =>
            simp only
            intro h
            cases h
            exact h1.1 hi
          | ok st₁ =>
            simp only
            have hsub := ((walk_inv ctx fs (fuel+1)).1 i st st₁ hi).1
            exact (ihr st₁ (Nat.lt_of_le_of_lt
              (unvisitedCount_le fs st.visited st₁.visited hsub) hm)).1
        · show (match processFile (fuel+1+1) ctx fs i st with
              | Except.error e => Except.error e
              | Except.ok st' => processImports (fuel+1+1) ctx fs rest st')
            = (match processFile (fuel+1) ctx fs i st with
              | Except.error e => Except.error e
              | Except.ok st' => processImports (fuel+1) ctx fs rest st')
          rw [h1.2]
          cases hi : processFile (fuel+1) ctx fs i st with
          | error e => simp only
          | ok st₁ =>
            simp only
            have hsub := ((walk_inv ctx fs (fuel+1)).1 i st st₁ hi).1
            exact (ihr st₁ (Nat.lt_of_le_of_lt
              (unvisitedCount_le fs st.visited st₁.visited hsub) hm)).2
    exact ⟨hpf, hpl⟩

/-- Extra fuel beyond the adequate bound never changes the result. -/
theorem processFile_fuel_stable (fuel k : Nat) (p : String) (st : WalkState)
    (hm : unvisitedCount fs st.visited < fuel) :
    processFile (fuel + k) ctx fs p st = processFile fuel ctx fs p st := by
  induction k with
  | zero => rfl
  | succ k ihk =>
    have hstep := ((walk_adequate ctx fs (fuel + k)).1 p st
      (Nat.lt_of_lt_of_le hm (Nat.le_add_right _ _))).2
    calc processFile (fuel + (k+1)) ctx fs p st
        = processFile ((fuel + k) + 1) ctx fs p st := rfl
      _ = processFile (fuel + k) ctx fs p st := hstep
      _ = processFile fuel ctx fs p st := ihk

end Walker

/-! ### Concrete fixtures used by the claim instances -/

/-- Context with repository root `/r`, no ignore rules, and the alias table
the program builds (`@ ↦ root`). -/
def jsCtx : ProjectContext :=
  { git_root := "/r", ignoreRule := fun _ => false, path_aliases := [("@", "/r")] }

/-- Directory `/r/s` holding `app.ts` (importing `./util`) and `util.ts`;
`util.js` does not exist. -/
def c2fs : FS :=
  { files := ["/r/s/util.ts", "/r/s/app.ts"], dirs := ["/r", "/r/s"],
    rawImports := fun p => if p == "/r/s/app.ts" then ["./util"] else [] }

/-- Directory `/r/s` holding `app.tsx` (importing `./comp`) and a directory
`comp` containing `index.tsx`. -/
def c3fs : FS :=
  { files := ["/r/s/comp/index.tsx", "/r/s/app.tsx"],
    dirs := ["/r", "/r/s", "/r/s/comp"],
    rawImports := fun p => if p == "/r/s/app.tsx" then ["./comp"] else [] }

/-- Package `/r/pkg` holding `mod.py` (with `from .sub import x`, module
token `.sub`) and `sub.py`. -/
def c4fs : FS :=
  { files := ["/r/pkg/mod.py", "/r/pkg/sub.py"], dirs := ["/r", "/r/pkg"],
    rawImports := fun p => if p == "/r/pkg/mod.py" then [".sub"] else [] }

/-- Cyclic import graph: `/r/a.py` imports `b`, `/r/b.py` imports `a`. -/
def cycFs : FS :=
  { files := ["/r/a.py", "/r/b.py"], dirs := ["/r"],
    rawImports := fun p =>
      if p == "/r/a.py" then ["b"]
      else if p == "/r/b.py" then ["a"] else [] }

/-- Root file `/r/m.py` importing the external package `numpy`, which has no
file anywhere under the root; also `/r/notes.txt` with an unknown extension. -/
def npFs : FS :=
  { files := ["/r/m.py", "/r/notes.txt"], dirs := ["/r"],
    rawImports := fun p => if p == "/r/m.py" then ["numpy"] else [] }

/-- Root files `/r/a/b/c.py` and `/r/m.py` importing `a.b.c`. -/
def c7fs : FS :=
  { files := ["/r/a/b/c.py", "/r/m.py"], dirs := ["/r", "/r/a", "/r/a/b"],
    rawImports := fun p => if p == "/r/m.py" then ["a.b.c"] else [] }

/-- A single file `/r/a.py` with no imports. -/
def soloFs : FS :=
  { files := ["/r/a.py"], dirs := ["/r"], rawImports := fun _ => [] }

/-- Two copies of the same module, one with an upper-case file name and
extension, importing `sub`. -/
def caseFs : FS :=
  { files := ["/r/MOD.PY", "/r/mod.py", "/r/sub.py"], dirs := ["/r"],
    rawImports := fun p =>
      if p == "/r/MOD.PY" || p == "/r/mod.py" then ["sub"] else [] }

/-- Context whose gitignore matcher ignores exactly `/r/skip.py`. -/
def skipCtx : ProjectContext :=
  { git_root := "/r", ignoreRule := fun q => q == "/r/skip.py",
    path_aliases := [("@", "/r")] }

/-- Filesystem holding the ignored file `/r/skip.py`. -/
def skipFs : FS :=
  { files := ["/r/skip.py", "/r/a.py"], dirs := ["/r"],
    rawImports := fun _ => [] }

/-- Filesystem holding `/r/a.py` (no imports) and a file `/out/x.py` that
exists on disk but lies outside the repository root `/r`. -/
def outFs : FS :=
  { files := ["/r/a.py", "/out/x.py"], dirs := ["/r", "/out"],
    rawImports := fun _ => [] }

/-! ### Claims settled directly by evaluating the embedded code -/

/-- C2: the claim says resolution of `./util` in `D` yields `D/util.ts`
when only `util.ts` exists, via per-extension candidates.  The code's
`resolve_js_import` generates no extension candidates (its comment claims
`get_imports` checks extension variants, but `get_imports` only filters the
bare path for existence), so the import resolves to nothing even though
`D/util.ts` exists. -/
theorem c2_no_extension_inference :
    getImports jsCtx c2fs "/r/s/app.ts" = Except.ok []
    ∧ existsPath c2fs "/r/s/util.ts" = true
    ∧ existsPath c2fs "/r/s/util.js" = false
    ∧ resolve_path jsCtx.path_aliases "./util" "/r/s" = some "/r/s/./util" :=
  ⟨rfl, rfl, rfl, rfl⟩

/-- C3: the claim says `./comp` resolves to `D/comp/index.tsx` when
`D/comp` is a directory containing `index.tsx`.  The code produces the bare
directory path as its only candidate; the directory exists, so it survives
filtering, and the walk then aborts trying to read the directory — it
never produces `D/comp/index.tsx`. -/
theorem c3_directory_instead_of_index :
    getImports jsCtx c3fs "/r/s/app.tsx" = Except.ok ["/r/s/./comp"]
    ∧ processFile 5 jsCtx c3fs "/r/s/app.tsx" ⟨[], []⟩
        = Except.error (WalkErr.ioErr "/r/s/./comp")
    ∧ existsPath c3fs "/r/s/comp/index.tsx" = true :=
  ⟨rfl, rfl, rfl⟩

/-- C4: the claim says the module token `.sub` in `pkg/mod.py` resolves to
`pkg/sub.py`.  The code first converts dots to separators, so `.sub`
becomes the absolute path `/sub`, which `Path::join` takes wholesale,
yielding `/sub.py`; the candidate fails the existence check even though
`pkg/sub.py` exists. -/
theorem c4_relative_python_escapes :
    resolve_python_import ".sub" "/r/pkg" "/r" = some "/sub.py"
    ∧ getImports jsCtx c4fs "/r/pkg/mod.py" = Except.ok []
    ∧ isFile c4fs "/r/pkg/sub.py" = true :=
  ⟨rfl, rfl, rfl⟩

/-! ### Alias and Python resolution rules -/

/-- C6: `resolve_path` returns `aliasRoot.join(rest)` when the raw string
splits at the first separator into a known alias and a remainder; otherwise
it joins a dot-leading raw string onto the importing file's directory
unmodified; otherwise it yields nothing, and the JS/TS caller falls back to
`resolve_js_import`. -/
theorem c6_alias_resolution (aliases : List (String × String))
    (imp fileDir : String) :
    (∀ tok rest root, splitOnce imp '/' = some (tok, rest) →
        List.lookup tok aliases = some root →
        resolve_path aliases imp fileDir = some (rustJoin root rest))
    ∧ ((∀ tok rest, splitOnce imp '/' = some (tok, rest) →
          List.lookup tok aliases = none) →
        strStartsWith imp "." = true →
        resolve_path aliases imp fileDir = some (rustJoin fileDir imp))
    ∧ ((∀ tok rest, splitOnce imp '/' = some (tok, rest) →
          List.lookup tok aliases = none) →
        strStartsWith imp "." = false →
        resolve_path aliases imp fileDir = none)
    ∧ (resolve_path aliases imp fileDir = none →
        (resolve_path aliases imp fileDir).orElse
            (fun _ => some (resolve_js_import imp fileDir))
          = some (rustJoin fileDir imp)) := by
  refine ⟨?_, ?_, ?_, ?_⟩
  · intro tok rest root hsplit hlook
    simp [resolve_path, hsplit, hlook]
  · intro hnone hdot
    unfold resolve_path
    cases hsplit : splitOnce imp '/' with
    | none => simp [hdot]
    | some pr => simp [hnone pr.1 pr.2 hsplit, hdot]
  · intro hnone hdot
    unfold resolve_path
    cases hsplit : splitOnce imp '/' with
    | none => simp [hdot]
    | some pr => simp [hnone pr.1 pr.2 hsplit, hdot]
  · intro hnone
    simp [hnone, Option.orElse, resolve_js_import]

/-- C6 witness: `@/lib/x` with the program's alias table and file directory
`/r/d` resolves to `/r/lib/x`. -/
theorem c6_witness :
    resolve_path [("@", "/r")] "@/lib/x" "/r/d" = some "/r/lib/x" :=
  (c6_alias_resolution [("@", "/r")] "@/lib/x" "/r/d").1 "@" "lib/x" "/r" rfl rfl

/-- C7: a Python import token without a leading dot is joined (dots made
separators) onto the repository root with the `py` extension appended; it is
the single candidate of the import and survives exactly when it exists.
The token `a.b.c` under root `/r` yields `/r/a/b/c.py`. -/
theorem c7_absolute_python (ctx : ProjectContext) (fs : FS) (p imp : String)
    (hf : isFile fs p = true)
    (hext : lowerStr (extOf p) = "py")
    (hraw : fs.rawImports (normPath p) = [imp])
    (hdot : strStartsWith imp "." = false) :
    resolve_python_import imp (parentDir p) ctx.git_root
        = some (withExtension (rustJoin ctx.git_root (replaceChar imp '.' '/')) "py")
    ∧ getImports ctx fs p
        = Except.ok
            (if existsPath fs
                  (withExtension (rustJoin ctx.git_root (replaceChar imp '.' '/')) "py")
              then [withExtension (rustJoin ctx.git_root (replaceChar imp '.' '/')) "py"]
              else [])
    ∧ resolve_python_import "a.b.c" "/r/pkg" "/r" = some "/r/a/b/c.py" := by
  refine ⟨by simp [resolve_python_import, hdot], ?_, rfl⟩
  unfold getImports
  rw [if_pos hf, hext]
  simp only [langConfig, hraw, List.filterMap, resolve_python_import, hdot,
    if_neg (by simp [hdot] : ¬ strStartsWith imp "." = true)]
  cases hx : existsPath fs
      (withExtension (rustJoin ctx.git_root (replaceChar imp '.' '/')) "py") <;>
    simp [List.filter, hx]

/-- C7 witness: `a.b.c` imported from `/r/m.py` resolves to the existing
file `/r/a/b/c.py`, the unique surviving candidate. -/
theorem c7_witness :
    getImports jsCtx c7fs "/r/m.py" = Except.ok ["/r/a/b/c.py"] :=
  (c7_absolute_python jsCtx c7fs "/r/m.py" "a.b.c" rfl rfl rfl rfl).2.1

/-- C8: for a readable file, `get_imports` never fails: every returned path
exists on disk (unresolvable imports are dropped by the existence filter),
an unrecognized extension yields the empty list, and concretely
`import numpy` with no matching file under the root yields no entry. -/
theorem c8_silent_drop (ctx : ProjectContext) (fs : FS) (p : String)
    (hf : isFile fs p = true) :
    (∃ l, getImports ctx fs p = Except.ok l
        ∧ ∀ q ∈ l, existsPath fs q = true)
    ∧ (langConfig (lowerStr (extOf p)) = none →
        getImports ctx fs p = Except.ok [])
    ∧ getImports jsCtx npFs "/r/m.py" = Except.ok []
    ∧ getImports jsCtx npFs "/r/notes.txt" = Except.ok [] := by
  refine ⟨?_, ?_, rfl, rfl⟩
  · unfold getImports
    rw [if_pos hf]
    cases hl : langConfig (lowerStr (extOf p)) with
    | none => exact ⟨[], rfl, by simp⟩
    | some lang =>
      refine ⟨_, rfl, ?_⟩
      intro q hq
      exact (List.mem_filter.mp hq).2
  · intro hl
    unfold getImports
    rw [if_pos hf, hl]

/-- C8 witness: the entry file `/r/m.py` is readable and its sole import
`numpy` resolves to no existing path, so extraction yields no entries. -/
theorem c8_witness :
    ∃ l, getImports jsCtx npFs "/r/m.py" = Except.ok l
        ∧ ∀ q ∈ l, existsPath npFs q = true :=
  (c8_silent_drop jsCtx npFs "/r/m.py" rfl).1

/-- C10: extension dispatch is case-insensitive — `get_imports` lowercases
the extension before matching, so two files in the same directory with the
same content whose extensions agree up to case are extracted and resolved
identically. -/
theorem c10_case_insensitive_dispatch (ctx : ProjectContext) (fs : FS)
    (p₁ p₂ : String)
    (hf₁ : isFile fs p₁ = true) (hf₂ : isFile fs p₂ = true)
    (hdir : parentDir p₁ = parentDir p₂)
    (hext : lowerStr (extOf p₁) = lowerStr (extOf p₂))
    (hraw : fs.rawImports (normPath p₁) = fs.rawImports (normPath p₂)) :
    getImports ctx fs p₁ = getImports ctx fs p₂ := by
  unfold getImports
  rw [if_pos hf₁, if_pos hf₂, hext, hdir, hraw]

/-- C10 witness: `/r/MOD.PY` is dispatched and resolved exactly like
`/r/mod.py`, and both resolve their import to `/r/sub.py`. -/
theorem c10_witness :
    getImports jsCtx caseFs "/r/MOD.PY" = getImports jsCtx caseFs "/r/mod.py"
    ∧ getImports jsCtx caseFs "/r/MOD.PY" = Except.ok ["/r/sub.py"] :=
  ⟨c10_case_insensitive_dispatch jsCtx caseFs "/r/MOD.PY" "/r/mod.py"
      rfl rfl rfl rfl rfl, rfl⟩

/-! ### Closure-walk claims -/

/-- C1: on every import graph — cyclic ones included — the closure walk
terminates: with fuel exceeding the number of unvisited existing paths the
embedding's fuel bound is never hit and the result is independent of the
fuel; and on success the visited set holds each canonical path exactly
once, because `process_file` inserts the canonical path before exploring
its imports and skips paths already present. -/
theorem c1_cycle_termination (ctx : ProjectContext) (fs : FS) (p : String)
    (st : WalkState) (fuel : Nat) (hnd : st.visited.Nodup)
    (hfuel : unvisitedCount fs st.visited < fuel) :
    processFile fuel ctx fs p st ≠ Except.error WalkErr.fuelOut
    ∧ (∀ fuel₂, unvisitedCount fs st.visited < fuel₂ →
        processFile fuel₂ ctx fs p st = processFile fuel ctx fs p st)
    ∧ (∀ st', processFile fuel ctx fs p st = Except.ok st' →
        st'.visited.Nodup ∧ ∀ x ∈ st'.visited, st'.visited.count x = 1) := by
  refine ⟨((walk_adequate ctx fs fuel).1 p st hfuel).1, ?_, ?_⟩
  · intro fuel₂ hf₂
    have e₁ : unvisitedCount fs st.visited + 1
        + (fuel - (unvisitedCount fs st.visited + 1)) = fuel := by omega
    have e₂ : unvisitedCount fs st.visited + 1
        + (fuel₂ - (unvisitedCount fs st.visited + 1)) = fuel₂ := by omega
    have s₁ := processFile_fuel_stable ctx fs (unvisitedCount fs st.visited + 1)
      (fuel - (unvisitedCount fs st.visited + 1)) p st (Nat.lt_succ_self _)
    have s₂ := processFile_fuel_stable ctx fs (unvisitedCount fs st.visited + 1)
      (fuel₂ - (unvisitedCount fs st.visited + 1)) p st (Nat.lt_succ_self _)
    rw [e₁] at s₁
    rw [e₂] at s₂
    rw [s₂, s₁]
  · intro st' hok
    have hinv := (walk_inv ctx fs fuel).1 p st st' hok
    have hnd' := hinv.2.2 hnd
    exact ⟨hnd', fun x hx => List.count_eq_one_of_mem hnd' hx⟩

/-- C1 witness: on the cyclic graph `a.py ↔ b.py` (three existing paths,
fuel 4, empty initial state) the walk does not exhaust its fuel and ends
with visited set exactly the two files, each counted once. -/
theorem c1_witness :
    processFile 4 jsCtx cycFs "/r/a.py" ⟨[], []⟩ ≠ Except.error WalkErr.fuelOut
    ∧ processFile 4 jsCtx cycFs "/r/a.py" ⟨[], []⟩
        = Except.ok ⟨["/r/b.py", "/r/a.py"], ["/r/b.py", "/r/a.py"]⟩
    ∧ (["/r/b.py", "/r/a.py"] : List String).count "/r/a.py" = 1
    ∧ (["/r/b.py", "/r/a.py"] : List String).count "/r/b.py" = 1 :=
  have h := c1_cycle_termination jsCtx cycFs "/r/a.py" ⟨[], []⟩ 4
    List.nodup_nil (by decide)
  have hres : processFile 4 jsCtx cycFs "/r/a.py" ⟨[], []⟩
      = Except.ok ⟨["/r/b.py", "/r/a.py"], ["/r/b.py", "/r/a.py"]⟩ := rfl
  have hcount := h.2.2 ⟨["/r/b.py", "/r/a.py"], ["/r/b.py", "/r/a.py"]⟩ hres
  ⟨h.1, hres, hcount.2 "/r/a.py" (by decide), hcount.2 "/r/b.py" (by decide)⟩

/-- C5: a path the ignore predicate rejects — it matches an ignore rule or
its canonical form lies outside the repository root — is skipped: visiting
it returns the state unchanged (no insertion, no read, no exploration of
its imports), and no walk from any entry point ever inserts it (stated for
canonical paths, under a gitignore matcher insensitive to lexical
normalization). -/
theorem c5_ignored_never_visited (ctx : ProjectContext) (fs : FS) (p : String)
    (hig : isIgnored ctx fs p = true) :
    (∀ fuel st c, canon fs p = some c →
        processFile (fuel+1) ctx fs p st = Except.ok st)
    ∧ (∀ q fuel st st',
        (∀ r, ctx.ignoreRule (normPath r) = ctx.ignoreRule r) →
        normPath p = p →
        processFile fuel ctx fs q st = Except.ok st' →
        p ∉ st.visited → p ∉ st'.visited) := by
  constructor
  · intro fuel st c hc
    rw [processFile_succ, hc]
    simp [hig]
  · intro q fuel st st' hstable hp h hpn
    intro hmem
    rcases ((walk_inv ctx fs fuel).1 q st st' h).2.1 p hmem with hin | ⟨r, hcr, hir⟩
    · exact hpn hin
    · obtain ⟨hexr, hpr⟩ := canon_some fs r p hcr
      have hir' : underRoot ctx.git_root p = true ∧ ctx.ignoreRule r = false := by
        unfold isIgnored at hir
        rw [hcr] at hir
        simp at hir
        exact hir
      have hexp : existsPath fs p = true := by
        unfold existsPath at hexr ⊢
        rw [hp, hpr]
        exact hexr
      have hcanp : canon fs p = some p := by
        unfold canon
        rw [if_pos hexp, hp]
      have hrulep : ctx.ignoreRule p = true := by
        unfold isIgnored at hig
        rw [hcanp] at hig
        simp [hir'.1] at hig
        exact hig
      have hrulef : ctx.ignoreRule p = false := by
        rw [hpr, hstable r]
        exact hir'.2
      rw [hrulef] at hrulep
      cases hrulep

/-- C5 witness: `/r/skip.py` matches the ignore rule and visiting it leaves
the state untouched; `/out/x.py` exists on disk but canonicalizes outside
the root `/r`, and the walk of `/r/a.py` never inserts it. -/
theorem c5_witness :
    isIgnored skipCtx skipFs "/r/skip.py" = true
    ∧ processFile 3 skipCtx skipFs "/r/skip.py" ⟨[], []⟩ = Except.ok ⟨[], []⟩
    ∧ isIgnored jsCtx outFs "/out/x.py" = true
    ∧ "/out/x.py" ∉ (["/r/a.py"] : List String) :=
  have h1 := c5_ignored_never_visited skipCtx skipFs "/r/skip.py" (by decide)
  have h2 := c5_ignored_never_visited jsCtx outFs "/out/x.py" (by decide)
  ⟨by decide, h1.1 2 ⟨[], []⟩ "/r/skip.py" rfl, by decide,
   h2.2 "/r/a.py" 2 ⟨[], []⟩ ⟨["/r/a.py"], ["/r/a.py"]⟩ (fun _ => rfl) rfl rfl
     (by simp)⟩

/-- C9: visiting a path a second time in the same run is an idempotent
no-op — if a visit of `p` succeeded with state `st₁`, a later call on `p`
returns `st₁` unchanged: the visited set keeps its size and members, and
the ghost read log records no further file read. -/
theorem c9_second_visit_noop (ctx : ProjectContext) (fs : FS)
    (fuel fuel₂ : Nat) (p : String) (st st₁ : WalkState)
    (h : processFile fuel ctx fs p st = Except.ok st₁) :
    processFile (fuel₂+1) ctx fs p st₁ = Except.ok st₁ := by
  cases fuel with
  | zero => rw [processFile_zero] at h; cases h
  | succ fuel =>
    rw [processFile_succ] at h
    cases hc : canon fs p with
    | none => rw [hc] at h; cases h
    | some c =>
      rw [hc] at h
      simp only at h
      rw [processFile_succ, hc]
      simp only
      by_cases hg : (st.visited.contains c || isIgnored ctx fs p) = true
      · rw [if_pos hg] at h
        cases h
        rw [if_pos hg]
      · rw [if_neg hg] at h
        cases hgi : getImports ctx fs p with
        | error e => rw [hgi] at h; cases h
        | ok imps =>
          rw [hgi] at h
          simp only at h
          have hmem : c ∈ st₁.visited :=
            ((walk_inv ctx fs fuel).2 imps ⟨c :: st.visited, p :: st.reads⟩ st₁ h).1
              (List.mem_cons_self _ _)
          rw [if_pos (by rw [(contains_iff st₁.visited c).mpr hmem]; rfl)]

/-- C9 witness: after visiting `/r/a.py` once from the empty state, a second
visit returns the state `⟨[/r/a.py], [/r/a.py]⟩` unchanged. -/
theorem c9_witness :
    processFile 1 jsCtx soloFs "/r/a.py" ⟨["/r/a.py"], ["/r/a.py"]⟩
      = Except.ok ⟨["/r/a.py"], ["/r/a.py"]⟩ :=
  c9_second_visit_noop jsCtx soloFs 2 0 "/r/a.py" ⟨[], []⟩
    ⟨["/r/a.py"], ["/r/a.py"]⟩ rfl

end Clump
